import Mathlib

/-!
# Verification of the Prime-Vector-Analyzer factorization engine

Shallow embedding of the parallel probabilistic integer-factorization engine
from `src/services/vectorEngine.ts` (class `QuantumFactoringArchitect` and the
`QUANTUM_WORKER_BLOB` worker kernel).  All JavaScript `BigInt` values handled
by the engine are non-negative, so they are modelled as `Nat`; the public
entry point `factorizeAsync` takes an `Int` because its guard `nVal < 1n`
also covers negative inputs.  Loops are translated to structurally recursive
functions with an explicit fuel argument chosen large enough that fuel
exhaustion is unreachable (or, for the potentially diverging backtracking
loop, surfaces as an `Option.none` result standing for non-termination).
The worker pool race of `findFactorParallel` is inherently nondeterministic:
it is modelled by quantifying over the value the promise resolves with,
constrained to the outcomes a worker message can actually carry.
-/

/-- Absolute difference, embedding the worker's
`diff = x > y ? x - y : y - x` on `BigInt`. -/
def absDiff (a b : Nat) : Nat := if a > b then a - b else b - a

/-! ## The worker blob's binary GCD

The worker kernel ships its own binary GCD (`const gcd = (a, b) => ...`).
We embed each of its `while` loops as a fuel-indexed recursion and prove the
whole routine equal to `Nat.gcd`. -/

/-- Embeds `while ((a & 1n) === 0n) a >>= 1n;` — strips factors of two.
Fuel `a` itself is enough for any positive `a`. -/
def stripTwosF : Nat → Nat → Nat
  | 0, a => a
  | fu + 1, a => if a % 2 = 0 then stripTwosF fu (a / 2) else a

/-- Embeds `while (((a | b) & 1n) === 0n) { a >>= 1n; b >>= 1n; shift++; }`:
halves both arguments while both are even, counting the shift. -/
def commonTwosF : Nat → Nat → Nat → Nat × Nat × Nat
  | 0, a, b => (a, b, 0)
  | fu + 1, a, b =>
    if a % 2 = 0 ∧ b % 2 = 0 then
      let r := commonTwosF fu (a / 2) (b / 2)
      (r.1, r.2.1, r.2.2 + 1)
    else (a, b, 0)

/-- Embeds the main subtraction loop
`while (b !== 0n) { while ((b & 1n) === 0n) b >>= 1n; if (a > b) swap; b -= a; }`
(invariant: `a` odd). -/
def jsGcdLoop : Nat → Nat → Nat → Nat
  | 0, a, _ => a
  | fu + 1, a, b =>
    if b = 0 then a
    else
      let b' := stripTwosF b b
      if a > b' then jsGcdLoop fu b' (a - b') else jsGcdLoop fu a (b' - a)

/-- The worker blob's binary GCD `gcd(a, b)`. -/
def jsGcd (a b : Nat) : Nat :=
  if a = 0 then b
  else if b = 0 then a
  else
    let r := commonTwosF a a b
    let a2 := stripTwosF r.1 r.1
    jsGcdLoop (a2 + r.2.1 + 1) a2 r.2.1 * 2 ^ r.2.2

theorem stripTwosF_odd : ∀ fu a, 0 < a → a ≤ fu → stripTwosF fu a % 2 = 1 := by
  intro fu
  induction fu with
  | zero => intro a h1 h2; omega
  | succ fu ih =>
    intro a h1 h2
    unfold stripTwosF
    by_cases h : a % 2 = 0
    · simp only [h, if_pos]
      exact ih (a / 2) (by omega) (by omega)
    · simp only [h, if_neg, ite_false]
      omega

theorem stripTwosF_of_odd : ∀ fu a, a % 2 = 1 → stripTwosF fu a = a := by
  intro fu
  induction fu with
  | zero => intro a _; rfl
  | succ fu _ =>
    intro a h
    unfold stripTwosF
    simp [show ¬ a % 2 = 0 by omega]

theorem stripTwosF_gcd (b : Nat) (hb : b % 2 = 1) :
    ∀ fu a, Nat.gcd (stripTwosF fu a) b = Nat.gcd a b := by
  intro fu
  induction fu with
  | zero => intro a; rfl
  | succ fu ih =>
    intro a
    unfold stripTwosF
    by_cases h : a % 2 = 0
    · simp only [h, if_pos]
      rw [ih (a / 2)]
      have h2 : 2 ∣ a := Nat.dvd_of_mod_eq_zero h
      have hco : Nat.Coprime 2 b := Nat.coprime_two_left.mpr (Nat.odd_iff.mpr hb)
      calc Nat.gcd (a / 2) b = Nat.gcd (2 * (a / 2)) b :=
              (hco.gcd_mul_left_cancel (a / 2)).symm
        _ = Nat.gcd a b := by rw [Nat.mul_div_cancel' h2]
    · simp [h]

theorem jsGcdLoop_eq : ∀ fu a b, a % 2 = 1 → a + b ≤ fu →
    jsGcdLoop fu a b = Nat.gcd a b := by
  intro fu
  induction fu with
  | zero => intro a b ha hf; omega
  | succ fu ih =>
    intro a b ha hf
    unfold jsGcdLoop
    by_cases hb : b = 0
    · simp [hb]
    · simp only [hb, if_neg, ite_false]
      have hbpos : 0 < b := Nat.pos_of_ne_zero hb
      have hb'odd : stripTwosF b b % 2 = 1 := stripTwosF_odd b b hbpos le_rfl
      have hgab : Nat.gcd a (stripTwosF b b) = Nat.gcd a b := by
        rw [Nat.gcd_comm a (stripTwosF b b), stripTwosF_gcd a ha b b, Nat.gcd_comm]
      -- the stripped value is positive and bounded by b
      have hb'le : ∀ fu2 c, stripTwosF fu2 c ≤ c := by
        intro fu2
        induction fu2 with
        | zero => intro c; exact le_rfl
        | succ fu2 ih2 =>
          intro c
          unfold stripTwosF
          by_cases hc : c % 2 = 0
          · simp only [hc, if_pos]
            exact le_trans (ih2 (c / 2)) (Nat.div_le_self c 2)
          · simp [hc]
      have hble : stripTwosF b b ≤ b := hb'le b b
      have hb'pos : 0 < stripTwosF b b := by omega
      set b' := stripTwosF b b with hb'def
      by_cases hcmp : a > b'
      · simp only [hcmp, if_pos]
        rw [ih b' (a - b') hb'odd (by omega)]
        rw [Nat.gcd_comm b' (a - b'), Nat.gcd_sub_self_left (le_of_lt hcmp), hgab]
      · simp only [hcmp, if_neg, ite_false]
        rw [ih a (b' - a) ha (by omega)]
        rw [Nat.gcd_sub_self_right (by omega), hgab]

theorem commonTwosF_spec : ∀ fu a b, 0 < a → a ≤ fu →
    (commonTwosF fu a b).1 * 2 ^ (commonTwosF fu a b).2.2 = a ∧
    (commonTwosF fu a b).2.1 * 2 ^ (commonTwosF fu a b).2.2 = b ∧
    ((commonTwosF fu a b).1 % 2 = 1 ∨ (commonTwosF fu a b).2.1 % 2 = 1) := by
  intro fu
  induction fu with
  | zero => intro a b h1 h2; omega
  | succ fu ih =>
    intro a b h1 h2
    unfold commonTwosF
    by_cases h : a % 2 = 0 ∧ b % 2 = 0
    · simp only [h, if_pos, and_true]
      obtain ⟨ha2, hb2⟩ := h
      have := ih (a / 2) (b / 2) (by omega) (by omega)
      obtain ⟨e1, e2, e3⟩ := this
      refine ⟨?_, ?_, e3⟩
      · rw [pow_succ, ← Nat.mul_assoc, e1]; omega
      · rw [pow_succ, ← Nat.mul_assoc, e2]; omega
    · simp only [h, if_neg, ite_false]
      refine ⟨by simp, by simp, by omega⟩

/-- The worker's binary GCD agrees with `Nat.gcd` on all inputs. -/
theorem jsGcd_eq_gcd (a b : Nat) : jsGcd a b = Nat.gcd a b := by
  unfold jsGcd
  by_cases ha : a = 0
  · simp [ha]
  · by_cases hb : b = 0
    · simp [ha, hb]
    · simp only [ha, hb, if_neg, ite_false]
      obtain ⟨e1, e2, e3⟩ :=
        commonTwosF_spec a a b (Nat.pos_of_ne_zero ha) le_rfl
      set a1 := (commonTwosF a a b).1 with ha1
      set b1 := (commonTwosF a a b).2.1 with hb1
      set k := (commonTwosF a a b).2.2 with hk
      have ha1pos : 0 < a1 := by
        rcases Nat.eq_zero_or_pos a1 with h | h
        · rw [h] at e1; simp at e1; omega
        · exact h
      have ha2odd : stripTwosF a1 a1 % 2 = 1 := by
        rcases e3 with h | h
        · -- a1 already odd: stripping is the identity on odd numbers
          rw [stripTwosF_of_odd a1 a1 h]; exact h
        · -- b1 odd; a1 may be even, strip until odd
          exact stripTwosF_odd a1 a1 ha1pos le_rfl
      have hstrip_gcd : Nat.gcd (stripTwosF a1 a1) b1 = Nat.gcd a1 b1 := by
        rcases e3 with h | h
        · rw [stripTwosF_of_odd a1 a1 h]
        · exact stripTwosF_gcd b1 h a1 a1
      have hloop := jsGcdLoop_eq (stripTwosF a1 a1 + b1 + 1)
        (stripTwosF a1 a1) b1 ha2odd (by omega)
      rw [hloop, hstrip_gcd]
      -- reassemble the common power of two
      have : Nat.gcd a b = Nat.gcd (a1 * 2 ^ k) (b1 * 2 ^ k) := by rw [e1, e2]
      rw [this, Nat.mul_comm a1 (2 ^ k), Nat.mul_comm b1 (2 ^ k),
        Nat.gcd_mul_left, Nat.mul_comm]

/-! ## `QuantumFactoringArchitect.power` — modular exponentiation

`power(base, exp, mod)` does `base %= mod` then squares-and-multiplies while
halving `exp`.  The loop is fuel-indexed; `exp` itself bounds the number of
halvings, so `exp` is passed as fuel. -/

/-- The body of `power`'s `while (exp > 0n)` loop, threading `res`. -/
def powerGo : Nat → Nat → Nat → Nat → Nat → Nat
  | 0, res, _, _, _ => res
  | fu + 1, res, base, exp, m =>
    if exp = 0 then res
    else
      let res' := if exp % 2 = 1 then res * base % m else res
      powerGo fu res' (base * base % m) (exp / 2) m

/-- `QuantumFactoringArchitect.power(base, exp, mod)`. -/
def power (base exp m : Nat) : Nat := powerGo exp 1 (base % m) exp m

theorem powerGo_eq (m : Nat) (hm : 2 ≤ m) : ∀ fu exp res base, exp ≤ fu →
    res < m → base < m → powerGo fu res base exp m = res * base ^ exp % m := by
  intro fu
  induction fu with
  | zero =>
    intro exp res base he hr _
    have : exp = 0 := by omega
    subst this
    simp [powerGo, Nat.mod_eq_of_lt hr]
  | succ fu ih =>
    intro exp res base he hr hb
    unfold powerGo
    by_cases h0 : exp = 0
    · subst h0; simp [Nat.mod_eq_of_lt hr]
    · simp only [h0, if_neg, ite_false]
      have hhalf : exp / 2 ≤ fu := by omega
      have hbase' : base * base % m < m := Nat.mod_lt _ (by omega)
      by_cases hodd : exp % 2 = 1
      · simp only [hodd, if_pos]
        have hres' : res * base % m < m := Nat.mod_lt _ (by omega)
        rw [ih (exp / 2) (res * base % m) (base * base % m) hhalf hres' hbase']
        have h1 : (res * base % m) * ((base * base % m) ^ (exp / 2)) ≡
            (res * base) * ((base * base) ^ (exp / 2)) [MOD m] :=
          (Nat.mod_modEq (res * base) m).mul
            ((Nat.mod_modEq (base * base) m).pow (exp / 2))
        have h2 : (res * base) * ((base * base) ^ (exp / 2)) = res * base ^ exp := by
          rw [← pow_two, ← pow_mul]
          conv_rhs => rw [show exp = 1 + 2 * (exp / 2) by omega]
          rw [pow_add, pow_one]
          ring
        exact h2 ▸ h1
      · simp only [hodd, if_neg, ite_false]
        rw [ih (exp / 2) res (base * base % m) hhalf hr hbase']
        have h1 : res * ((base * base % m) ^ (exp / 2)) ≡
            res * ((base * base) ^ (exp / 2)) [MOD m] :=
          (Nat.ModEq.refl res).mul ((Nat.mod_modEq (base * base) m).pow (exp / 2))
        have h2 : res * ((base * base) ^ (exp / 2)) = res * base ^ exp := by
          rw [← pow_two, ← pow_mul]
          conv_rhs => rw [show exp = 2 * (exp / 2) by omega]
        exact h2 ▸ h1

/-- `power` computes `base ^ exp % m` for any modulus `m ≥ 2`. -/
theorem power_eq (base exp m : Nat) (hm : 2 ≤ m) :
    power base exp m = base ^ exp % m := by
  unfold power
  rw [powerGo_eq m hm exp exp 1 (base % m) le_rfl (by omega)
    (Nat.mod_lt _ (by omega))]
  rw [Nat.one_mul, ← Nat.pow_mod]

/-! ## `QuantumFactoringArchitect.isPrime` — Miller-Rabin

`isPrime` handles `n < 2`, `n ∈ {2,3}` and even `n`, writes
`n - 1 = d * 2^s` with `d` odd, and runs the witness loop over the fixed
base list, breaking off (accepting) at the first base `a` with `n ≤ a`. -/

/-- Embeds `while (d % 2n === 0n) { d /= 2n; s++; }`, returning `(d, s)`. -/
def splitTwos : Nat → Nat → Nat × Nat
  | 0, d => (d, 0)
  | fu + 1, d =>
    if d % 2 = 0 then
      let r := splitTwos fu (d / 2)
      (r.1, r.2 + 1)
    else (d, 0)

/-- Embeds the witness's squaring loop `for (r = 1n; r < s; r++)`: the first
argument is the remaining iteration count `s - r`; returns the final value of
the `composite` flag. -/
def mrSquare : Nat → Nat → Nat → Bool
  | 0, _, _ => true
  | it + 1, x, n =>
    let x' := power x 2 n
    if x' = n - 1 then false else mrSquare it x' n

/-- One Miller-Rabin witness: `true` iff base `a` proves `n` composite
(the code's `composite` flag surviving the squaring loop). -/
def mrWitnessFails (n d s a : Nat) : Bool :=
  let x := power a d n
  if x = 1 ∨ x = n - 1 then false
  else mrSquare (s - 1) x n

/-- Embeds the `for (const a of bases)` loop with its `if (n <= a) break;`. -/
def basesLoop : List Nat → Nat → Nat → Nat → Bool
  | [], _, _, _ => true
  | a :: rest, n, d, s =>
    if n ≤ a then true
    else if mrWitnessFails n d s a then false
    else basesLoop rest n d s

/-- The fixed witness list of `isPrime` (the first 12 primes). -/
def mrBases : List Nat := [2, 3, 5, 7, 11, 13, 17, 19, 23, 29, 31, 37]

/-- `QuantumFactoringArchitect.isPrime(n)`. -/
def isPrime (n : Nat) : Bool :=
  if n < 2 then false
  else if n = 2 ∨ n = 3 then true
  else if n % 2 = 0 then false
  else
    let ds := splitTwos (n - 1) (n - 1)
    basesLoop mrBases n ds.1 ds.2

/-! ## Specification-level characterisation of a Miller-Rabin witness -/

/-- A witness `a` fails (proves `n` composite) in the sense of the spec:
`a^d mod n` is neither `1` nor `n-1`, and no repeated squaring (the `r`-th
squaring giving `a^(d·2^r) mod n`, for `1 ≤ r < s`; `r = 0` is the initial
check) ever reaches `n-1`. -/
def specWitnessFails (n d s a : Nat) : Prop :=
  a ^ d % n ≠ 1 ∧ ∀ r < s, a ^ (d * 2 ^ r) % n ≠ n - 1

instance (n d s a : Nat) : Decidable (specWitnessFails n d s a) := by
  unfold specWitnessFails
  infer_instance

theorem splitTwos_spec : ∀ fu d, 0 < d → d ≤ fu →
    (splitTwos fu d).1 % 2 = 1 ∧
    (splitTwos fu d).1 * 2 ^ (splitTwos fu d).2 = d := by
  intro fu
  induction fu with
  | zero => intro d h1 h2; omega
  | succ fu ih =>
    intro d h1 h2
    unfold splitTwos
    by_cases h : d % 2 = 0
    · simp only [h, if_pos]
      obtain ⟨e1, e2⟩ := ih (d / 2) (by omega) (by omega)
      refine ⟨e1, ?_⟩
      rw [pow_succ, ← Nat.mul_assoc, e2]
      omega
    · simp only [h, if_neg, ite_false]
      refine ⟨by omega, by simp⟩

theorem mrSquare_false_iff (n : Nat) (hn : 2 ≤ n) :
    ∀ k x, (mrSquare k x n = false ↔
      ∃ j, 1 ≤ j ∧ j ≤ k ∧ x ^ 2 ^ j % n = n - 1) := by
  intro k
  induction k with
  | zero =>
    intro x
    simp only [mrSquare]
    constructor
    · intro h; exact absurd h (by simp)
    · rintro ⟨j, h1, h2, _⟩; omega
  | succ k ih =>
    intro x
    have hkey : ∀ j, (x ^ 2 % n) ^ 2 ^ j % n = x ^ 2 ^ (j + 1) % n := by
      intro j
      have h2 : (2 : Nat) * 2 ^ j = 2 ^ (j + 1) := by rw [pow_succ]; ring
      rw [← Nat.pow_mod, ← pow_mul, h2]
    unfold mrSquare
    rw [power_eq x 2 n hn]
    by_cases h : x ^ 2 % n = n - 1
    · simp only [h, if_pos, true_iff]
      refine ⟨1, le_rfl, by omega, ?_⟩
      rw [pow_one]
      exact h
    · simp only [h, if_neg, ite_false]
      rw [ih (x ^ 2 % n)]
      constructor
      · rintro ⟨j, hj1, hjk, heq⟩
        refine ⟨j + 1, by omega, by omega, ?_⟩
        rw [← hkey j]
        exact heq
      · rintro ⟨j, hj1, hjk1, heq⟩
        have hj2 : 2 ≤ j := by
          rcases Nat.eq_or_lt_of_le hj1 with h1 | h1
          · exfalso
            rw [← h1, pow_one] at heq
            exact h heq
          · omega
        refine ⟨j - 1, by omega, by omega, ?_⟩
        rw [hkey (j - 1), show j - 1 + 1 = j by omega]
        exact heq

/-- The code's per-witness check agrees with the spec-level description. -/
theorem mrWitnessFails_iff (n d s a : Nat) (hn : 3 ≤ n) (hs : 1 ≤ s) :
    (mrWitnessFails n d s a = true ↔ specWitnessFails n d s a) := by
  unfold mrWitnessFails specWitnessFails
  rw [power_eq a d n (by omega)]
  have hxr : ∀ r, (a ^ d % n) ^ 2 ^ r % n = a ^ (d * 2 ^ r) % n := by
    intro r
    rw [← Nat.pow_mod, ← pow_mul]
  by_cases h : a ^ d % n = 1 ∨ a ^ d % n = n - 1
  · simp only [h, if_pos, Bool.false_eq_true, false_iff]
    rintro ⟨h1, h2⟩
    rcases h with h | h
    · exact h1 h
    · refine h2 0 hs ?_
      rw [pow_zero, Nat.mul_one]
      exact h
  · push_neg at h
    obtain ⟨h1, h2⟩ := h
    simp only [h1, h2, or_self, if_neg, ite_false, false_or]
    constructor
    · intro htrue
      refine ⟨h1, ?_⟩
      intro r hr hcon
      rcases Nat.eq_zero_or_pos r with h0 | h0
      · rw [h0, pow_zero, Nat.mul_one] at hcon
        exact h2 hcon
      · have : mrSquare (s - 1) (a ^ d % n) n = false := by
          rw [mrSquare_false_iff n (by omega)]
          exact ⟨r, h0, by omega, by rw [hxr r]; exact hcon⟩
        rw [this] at htrue
        exact absurd htrue (by simp)
    · rintro ⟨_, hall⟩
      by_contra hfalse
      have : mrSquare (s - 1) (a ^ d % n) n = false := by
        revert hfalse
        cases mrSquare (s - 1) (a ^ d % n) n <;> simp
      rw [mrSquare_false_iff n (by omega)] at this
      obtain ⟨j, hj1, hj2, heq⟩ := this
      refine hall j (by omega) ?_
      rw [← hxr j]
      exact heq

/-- The witness loop with its `if (n <= a) break` equals, for an ascending
base list, the conjunction of all witnesses strictly below `n`. -/
theorem basesLoop_iff : ∀ bs : List Nat, List.Sorted (· ≤ ·) bs → ∀ n d s,
    (basesLoop bs n d s = true ↔
      ∀ a ∈ bs, a < n → mrWitnessFails n d s a = false) := by
  intro bs
  induction bs with
  | nil => intro _ n d s; simp [basesLoop]
  | cons a rest ih =>
    intro hsorted n d s
    obtain ⟨hall, hrest⟩ := List.sorted_cons.mp hsorted
    unfold basesLoop
    by_cases hna : n ≤ a
    · simp only [hna, if_pos, true_iff]
      intro b hb hbn
      rcases List.mem_cons.mp hb with h | h
      · omega
      · have := hall b h
        omega
    · simp only [hna, if_neg, ite_false]
      by_cases hf : mrWitnessFails n d s a = true
      · simp only [hf, if_pos, Bool.false_eq_true, false_iff]
        intro hcon
        have := hcon a (List.mem_cons_self a rest) (by omega)
        rw [hf] at this
        exact absurd this (by simp)
      · have hf' : mrWitnessFails n d s a = false := by
          revert hf
          cases mrWitnessFails n d s a <;> simp
        simp only [hf', if_neg, ite_false, Bool.false_eq_true]
        rw [ih hrest n d s]
        constructor
        · intro hr b hb hbn
          rcases List.mem_cons.mp hb with h | h
          · rw [h]; exact hf'
          · exact hr b h hbn
        · intro hr b hb hbn
          exact hr b (List.mem_cons_of_mem a hb) hbn

/-! ## The worker kernel `solveRawBrent` (Brent's rho, part_003 blob)

The worker receives `(nStr, startC, seedVal)` and runs Brent's cycle
detection with polynomial `f(v) = (v² + c) mod n`, batch size `m = 1000` and
a step ceiling of `50_000_000`.  The 4× loop unrolling in the source is a
pure performance transformation: it performs exactly `r` (resp. `limit`)
applications of the loop body, which is how it is embedded here. -/

/-- Batch size `const m = 1000n`. -/
def brentM : Nat := 1000

/-- `const STEPS_LIMIT = 50000000`. -/
def stepsLimit : Nat := 50000000

/-- `r` sequential applications of `y = (y*y + c) % n` (phase 1, including
the 4× unrolled bulk steps and the residual steps). -/
def rhoIter (n c : Nat) : Nat → Nat → Nat
  | 0, v => v
  | k + 1, v => rhoIter n c k ((v * v + c) % n)

/-- The inner unrolled block: `limit` repetitions of
`y = (y*y+c) % n; diff = |x-y|; q = q*diff % n`, returning `(y, q)`. -/
def innerBatch (n c x : Nat) : Nat → Nat → Nat → Nat × Nat
  | 0, y, q => (y, q)
  | l + 1, y, q =>
    let y' := (y * y + c) % n
    innerBatch n c x l y' (q * absDiff x y' % n)

/-- State of the inner `while (k < r && g === 1n)` loop. -/
structure InnerSt where
  k : Nat
  y : Nat
  q : Nat
  g : Nat
  ys : Nat
  xs : Nat

/-- The inner loop: per round it sets `ys = y; xs = x`, takes
`limit = min(r - k, m)` steps with `q` reset to `1`, then refreshes
`g = gcd(q, n)` and advances `k`. -/
def brentInner (n c x r : Nat) : Nat → InnerSt → InnerSt
  | 0, s => s
  | fu + 1, s =>
    if s.k < r ∧ s.g = 1 then
      let limit := min (r - s.k) brentM
      let yq := innerBatch n c x limit s.y 1
      brentInner n c x r fu ⟨s.k + limit, yq.1, yq.2, jsGcd yq.2 n, s.y, x⟩
    else s

/-- State of the outer `while (g === 1n && steps < STEPS_LIMIT)` loop. -/
structure OuterSt where
  y : Nat
  x : Nat
  g : Nat
  r : Nat
  q : Nat
  xs : Nat
  ys : Nat
  steps : Nat

/-- The outer loop: `x = y`, advance `y` by `r` steps, add `r` to `steps`,
run the inner loop from `k = 0`, then double `r`. -/
def brentOuter (n c : Nat) : Nat → OuterSt → OuterSt
  | 0, s => s
  | fu + 1, s =>
    if s.g = 1 ∧ s.steps < stepsLimit then
      let x := s.y
      let y := rhoIter n c s.r s.y
      let is := brentInner n c x s.r (s.r + 1) ⟨0, y, s.q, s.g, s.ys, s.xs⟩
      brentOuter n c fu ⟨is.y, x, is.g, s.r * 2, is.q, is.xs, is.ys, s.steps + s.r⟩
    else s

/-- The backtracking loop `while (true) { ys = f(ys); g = gcd(|xs-ys|, n);
if (g > 1n) break; }`.  It can diverge in the source; fuel exhaustion is
modelled as `none`. -/
def brentBacktrack (n c : Nat) : Nat → Nat → Nat → Option Nat
  | 0, _, _ => none
  | fu + 1, xs, ys =>
    let ys' := (ys * ys + c) % n
    let g := jsGcd (absDiff xs ys') n
    if 1 < g then some g else brentBacktrack n c fu xs ys'

/-- `solveRawBrent(constantC, startY)` from the worker blob.  The outer fuel
`stepsLimit + 1` is unreachable because every round adds `r ≥ 1` to `steps`. -/
def solveRawBrent (n c y0 : Nat) : Option Nat :=
  let s := brentOuter n c (stepsLimit + 1) ⟨y0, y0, 1, 1, 1, y0, y0, 0⟩
  if s.g = n then brentBacktrack n c (n + 1) s.xs s.ys else some s.g

/-- The worker's `onmessage` body after `solveRawBrent`: retry once with
`c + 3` if the first attempt returned `1` or `n`, then post the factor only
if `1 < factor < n`, else post `null` (`none`).  The `try/catch` cannot fire:
no arithmetic here throws on non-negative `BigInt`s. -/
def lanePost (n c y0 : Nat) : Option Nat :=
  match solveRawBrent n c y0 with
  | none => none
  | some factor =>
    match (if factor = 1 ∨ factor = n then solveRawBrent n (c + 3) y0
           else some factor) with
    | none => none
    | some fac => if 1 < fac ∧ fac < n then some fac else none

theorem brentInner_g_dvd (n c x r : Nat) :
    ∀ fu s, s.g ∣ n → (brentInner n c x r fu s).g ∣ n := by
  intro fu
  induction fu with
  | zero => intro s h; exact h
  | succ fu ih =>
    intro s h
    unfold brentInner
    by_cases hc : s.k < r ∧ s.g = 1
    · simp only [hc, if_pos]
      apply ih
      simp only
      rw [jsGcd_eq_gcd]
      exact Nat.gcd_dvd_right _ n
    · simp only [hc, if_neg, ite_false]
      exact h

theorem brentOuter_g_dvd (n c : Nat) :
    ∀ fu s, s.g ∣ n → (brentOuter n c fu s).g ∣ n := by
  intro fu
  induction fu with
  | zero => intro s h; exact h
  | succ fu ih =>
    intro s h
    unfold brentOuter
    by_cases hc : s.g = 1 ∧ s.steps < stepsLimit
    · simp only [hc, if_pos]
      apply ih
      apply brentInner_g_dvd
      exact one_dvd n
    · simp only [hc, if_neg, ite_false]
      exact h

theorem brentBacktrack_dvd (n c : Nat) :
    ∀ fu xs ys g, brentBacktrack n c fu xs ys = some g → g ∣ n := by
  intro fu
  induction fu with
  | zero => intro xs ys g h; exact absurd h (by simp [brentBacktrack])
  | succ fu ih =>
    intro xs ys g h
    unfold brentBacktrack at h
    by_cases hc : 1 < jsGcd (absDiff xs ((ys * ys + c) % n)) n
    · simp only [hc, if_pos, Option.some_inj] at h
      rw [← h, jsGcd_eq_gcd]
      exact Nat.gcd_dvd_right _ n
    · simp only [hc, if_neg, ite_false] at h
      exact ih xs ((ys * ys + c) % n) g h

/-- Whatever `solveRawBrent` returns divides `n`. -/
theorem solveRawBrent_dvd (n c y0 g : Nat)
    (h : solveRawBrent n c y0 = some g) : g ∣ n := by
  unfold solveRawBrent at h
  set s := brentOuter n c (stepsLimit + 1) ⟨y0, y0, 1, 1, 1, y0, y0, 0⟩ with hs
  have hdvd : s.g ∣ n := brentOuter_g_dvd n c (stepsLimit + 1) _ (one_dvd n)
  by_cases hc : s.g = n
  · simp only [hc, if_pos] at h
    exact brentBacktrack_dvd n c (n + 1) s.xs s.ys g h
  · simp only [hc, if_neg, ite_false, Option.some_inj] at h
    rw [← h]
    exact hdvd

/-- A factor actually posted by a lane is a nontrivial proper divisor. -/
theorem lanePost_sound (n c y0 g : Nat) (h : lanePost n c y0 = some g) :
    1 < g ∧ g < n ∧ g ∣ n := by
  unfold lanePost at h
  rcases h1 : solveRawBrent n c y0 with _ | f
  · rw [h1] at h; exact absurd h (by simp)
  · rw [h1] at h
    simp only at h
    by_cases hretry : f = 1 ∨ f = n
    · simp only [hretry, if_pos] at h
      rcases h2 : solveRawBrent n (c + 3) y0 with _ | f2
      · rw [h2] at h; exact absurd h (by simp)
      · rw [h2] at h
        simp only at h
        by_cases h3 : 1 < f2 ∧ f2 < n
        · rw [if_pos h3, Option.some_inj] at h
          rw [← h]
          exact ⟨h3.1, h3.2, solveRawBrent_dvd n (c + 3) y0 f2 h2⟩
        · rw [if_neg h3] at h
          exact absurd h (by simp)
    · simp only [hretry, if_neg, ite_false] at h
      by_cases h3 : 1 < f ∧ f < n
      · rw [if_pos h3, Option.some_inj] at h
        rw [← h]
        exact ⟨h3.1, h3.2, solveRawBrent_dvd n c y0 f h1⟩
      · rw [if_neg h3] at h
        exact absurd h (by simp)

/-! ## `findFactorParallel` — the parallel coordinator

`findFactorParallel(n)` returns `2` for even `n`, `n` when `isPrime(n)`, and
otherwise races a pool of workers, resolving with the first posted factor
`f` with `f ≠ n && f ≠ 1`, or with `0` when every worker posted `null` or
the 3-minute global timeout fired.  The race value is a parameter; the
predicate `RacePossible` states which values the race can resolve with: `0`
(exhaustion/timeout) or a factor some lane posted (lane parameters `c`,
`y0` cover every diversified `(startC, seedVal)` choice). -/

/-- The values the worker race of `findFactorParallel n` can resolve with. -/
def RacePossible (n race : Nat) : Prop :=
  race = 0 ∨ ∃ c y0, lanePost n c y0 = some race ∧ race ≠ 1 ∧ race ≠ n

/-- `findFactorParallel(n)`, with the resolved race value made explicit. -/
def findFactorParallel (n race : Nat) : Nat :=
  if n % 2 = 0 then 2
  else if isPrime n then n
  else race

/-- An oracle assigning an outcome to each coordinator invocation (indexed
by the remaining engine fuel, so distinct invocations on equal cofactors may
differ) is admissible when every value is a possible `findFactorParallel`
result. -/
def CoordSpec (oracle : Nat → Nat → Nat) : Prop :=
  ∀ k m, ∃ race, RacePossible m race ∧ oracle k m = findFactorParallel m race

/-! ### Event-level model of one coordination round

The promise body installs one `onmessage` handler per worker and a single
global `setTimeout`.  A round is a sequence of events (worker messages
carrying `factor` or `null`, and at most one timeout); the handler code is
embedded literally in `coordStep`, and a JS promise keeps only its first
resolution (`firstResolve`). -/

/-- Mutable state of one `findFactorParallel` round: the `resolved` flag,
the `activeWorkers` counter, and the promise's resolution. -/
structure CoordState where
  resolved : Bool
  active : Nat
  result : Option Nat

/-- An event delivered to the round: a worker message with its posted
factor, or the single global timeout. -/
inductive CoordEvent where
  | msg : Option Nat → CoordEvent
  | timeout : CoordEvent

/-- `resolve(v)` on a JS promise: only the first resolution sticks. -/
def firstResolve : Option Nat → Nat → Option Nat
  | none, v => some v
  | some w, _ => some w

/-- One event-handler execution (the `worker.onmessage` body and the
`setTimeout` callback of `findFactorParallel`). -/
def coordStep (n : Nat) (s : CoordState) : CoordEvent → CoordState
  | .msg f =>
    if s.resolved then s
    else
      match f with
      | some fac =>
        if fac ≠ n ∧ fac ≠ 1 then
          { resolved := true, active := s.active, result := firstResolve s.result fac }
        else
          let a := s.active - 1
          if a = 0 then { s with active := a, result := firstResolve s.result 0 }
          else { s with active := a }
      | none =>
        let a := s.active - 1
        if a = 0 then { s with active := a, result := firstResolve s.result 0 }
        else { s with active := a }
  | .timeout =>
    if s.resolved then s
    else { s with resolved := true, result := firstResolve s.result 0 }

/-- A round processing `events` from the initial state (`resolved = false`,
`activeWorkers = workerCount`, promise pending). -/
def coordRun (n wc : Nat) (events : List CoordEvent) : CoordState :=
  events.foldl (coordStep n) ⟨false, wc, none⟩

/-! ## `factorizeAsync` — the factorization engine -/

/-- `while (temp % p === 0n) { factors.push(p); temp /= p; }` — one prime of
the sieve basis; returns the pushed factors and the final `temp`. -/
def sieveStrip : Nat → Nat → Nat → List Nat × Nat
  | 0, _, t => ([], t)
  | fu + 1, p, t =>
    if t % p = 0 then
      let r := sieveStrip fu p (t / p)
      (p :: r.1, r.2)
    else ([], t)

/-- `for (const p of smallBasis) { ... }`: strip every basis prime in turn.
Fuel `t` suffices for each prime since `t` at least halves on division. -/
def runSieve : List Nat → Nat → List Nat × Nat
  | [], t => ([], t)
  | p :: ps, t =>
    let r := sieveStrip t p t
    let r' := runSieve ps r.2
    (r.1 ++ r'.1, r'.2)

/-- The main-thread fast sieve basis of part_003 (`smallBasis`). -/
def smallBasis : List Nat := [2, 3, 5, 7, 11, 13, 17, 19, 23]

/-- The deep-processing loop `while (queue.length > 0)`.  The queue is a
stack (JS `pop`/`push` act on the array tail, modelled as the list head; the
source pushes `factor` then `current / factor`, so `current / factor` is on
top).  Fuel exhaustion with a non-empty queue (impossible for an admissible
oracle with fuel `≥ n`) is modelled as `none`. -/
def engineLoop (oracle : Nat → Nat → Nat) : Nat → List Nat → List Nat → Option (List Nat)
  | _, factors, [] => some factors
  | 0, _, _ :: _ => none
  | fu + 1, factors, current :: rest =>
    if isPrime current then engineLoop oracle fu (factors ++ [current]) rest
    else
      let factor := oracle fu current
      if factor = 0 ∨ factor = current then
        engineLoop oracle fu (factors ++ [current]) rest
      else
        engineLoop oracle fu factors (current / factor :: factor :: rest)

/-- `factorizeAsync(nVal)` for `nVal ≥ 2`: sieve, queue the residual if it
exceeds `1`, run the deep-processing loop, and sort ascending. -/
def factorizeCore (oracle : Nat → Nat → Nat) (fuel n : Nat) : Option (List Nat) :=
  let r := runSieve smallBasis n
  let queue := if r.2 > 1 then [r.2] else []
  (engineLoop oracle fuel r.1 queue).map (List.insertionSort (· ≤ ·))

/-- `QuantumFactoringArchitect.factorizeAsync(nVal)`.  The input is an `Int`
because the guard `nVal < 1n` also covers negative arguments. -/
def factorizeAsync (oracle : Nat → Nat → Nat) (fuel : Nat) (nVal : Int) :
    Option (List Nat) :=
  if nVal < 1 then some []
  else if nVal = 1 then some [1]
  else factorizeCore oracle fuel nVal.toNat

/-! ## Sieve lemmas -/

theorem sieveStrip_spec : ∀ fu p t, 2 ≤ p → 1 ≤ t → t ≤ fu →
    (sieveStrip fu p t).1.prod * (sieveStrip fu p t).2 = t ∧
    ¬ p ∣ (sieveStrip fu p t).2 ∧
    1 ≤ (sieveStrip fu p t).2 ∧
    ∀ x ∈ (sieveStrip fu p t).1, x = p := by
  intro fu
  induction fu with
  | zero => intro p t hp ht hf; omega
  | succ fu ih =>
    intro p t hp ht hf
    unfold sieveStrip
    by_cases h : t % p = 0
    · simp only [h, if_pos]
      have hdvd : p ∣ t := Nat.dvd_of_mod_eq_zero h
      have htp : 2 ≤ t := by
        rcases hdvd with ⟨w, hw⟩
        rcases Nat.eq_zero_or_pos w with h0 | h0
        · subst h0
          simp at hw
          omega
        · nlinarith
      have hq1 : 1 ≤ t / p :=
        (Nat.one_le_div_iff (show 0 < p by omega)).mpr (Nat.le_of_dvd (by omega) hdvd)
      have hq2 : t / p ≤ fu := by
        have h1 : t / p ≤ t / 2 := Nat.div_le_div_left hp (by omega)
        have h2 : t / 2 < t := Nat.div_lt_self (by omega) (by omega)
        omega
      obtain ⟨e1, e2, e3, e4⟩ := ih p (t / p) hp hq1 hq2
      refine ⟨?_, e2, e3, ?_⟩
      · simp only [List.prod_cons]
        rw [Nat.mul_assoc, e1, Nat.mul_div_cancel' hdvd]
      · intro x hx
        rcases List.mem_cons.mp hx with h1 | h1
        · exact h1
        · exact e4 x h1
    · simp only [h, if_neg, ite_false]
      refine ⟨by simp, ?_, ht, by simp⟩
      intro hdvd
      rcases hdvd with ⟨w, rfl⟩
      exact h (Nat.mul_mod_right p w)

theorem runSieve_spec : ∀ bs t, (∀ p ∈ bs, 2 ≤ p) → 1 ≤ t →
    (runSieve bs t).1.prod * (runSieve bs t).2 = t ∧
    1 ≤ (runSieve bs t).2 ∧
    (runSieve bs t).2 ∣ t ∧
    (∀ p ∈ bs, ¬ p ∣ (runSieve bs t).2) ∧
    (∀ x ∈ (runSieve bs t).1, x ∈ bs) := by
  intro bs
  induction bs with
  | nil =>
    intro t _ ht
    simp [runSieve, ht]
  | cons p ps ih =>
    intro t hbs ht
    have hp : 2 ≤ p := hbs p (List.mem_cons_self p ps)
    obtain ⟨e1, e2, e3, e4⟩ := sieveStrip_spec t p t hp ht le_rfl
    unfold runSieve
    obtain ⟨f1, f2, f3, f4, f5⟩ :=
      ih (sieveStrip t p t).2 (fun q hq => hbs q (List.mem_cons_of_mem p hq)) e3
    have hr2div : (sieveStrip t p t).2 ∣ t := Dvd.intro_left _ e1
    refine ⟨?_, f2, ?_, ?_, ?_⟩
    · simp only [List.prod_append]
      rw [Nat.mul_assoc, f1, e1]
    · exact dvd_trans f3 hr2div
    · intro q hq
      rcases List.mem_cons.mp hq with h1 | h1
      · subst h1
        intro hcon
        exact e2 (dvd_trans hcon f3)
      · exact f4 q h1
    · intro x hx
      rcases List.mem_append.mp hx with h1 | h1
      · exact List.mem_cons.mpr (Or.inl (e4 x h1))
      · exact List.mem_cons_of_mem p (f5 x h1)

/-! ## Coordinator and engine invariants -/

/-- When the engine's deep loop actually splits a cofactor (`factor ≠ 0` and
`factor ≠ current`), an admissible coordinator outcome is a nontrivial
proper divisor. -/
theorem coordSpec_split (oracle : Nat → Nat → Nat) (hco : CoordSpec oracle)
    (k m : Nat) (hm : 2 ≤ m) (hpr : isPrime m = false)
    (h0 : oracle k m ≠ 0) (hne : oracle k m ≠ m) :
    1 < oracle k m ∧ oracle k m < m ∧ oracle k m ∣ m := by
  obtain ⟨race, hrace, heq⟩ := hco k m
  rw [heq] at h0 hne ⊢
  unfold findFactorParallel at h0 hne ⊢
  by_cases he : m % 2 = 0
  · simp only [he, if_pos] at h0 hne ⊢
    exact ⟨by omega, by omega, Nat.dvd_of_mod_eq_zero he⟩
  · simp only [he, if_neg, ite_false, hpr, Bool.false_eq_true] at h0 hne ⊢
    rcases hrace with h | ⟨c, y0, hpost, _, _⟩
    · exact absurd h h0
    · obtain ⟨g1, g2, g3⟩ := lanePost_sound m c y0 race hpost
      exact ⟨g1, g2, g3⟩

/-- Master invariant of the deep-processing loop: for an admissible oracle
and a queue of cofactors `≥ 2`, a completed run multiplies out to
`factors.prod * queue.prod`, and every emitted element either was already in
`factors` or is `≥ 2` and is prime-according-to-`isPrime` or a cofactor some
coordinator round failed to split (returned `0` or the cofactor itself). -/
theorem engineLoop_spec (oracle : Nat → Nat → Nat) (hco : CoordSpec oracle) :
    ∀ fu factors queue res,
    (∀ x ∈ queue, 2 ≤ x) →
    engineLoop oracle fu factors queue = some res →
    res.prod = factors.prod * queue.prod ∧
    ∀ x ∈ res, x ∈ factors ∨
      (2 ≤ x ∧ (isPrime x = true ∨
        (isPrime x = false ∧ ∃ k, oracle k x = 0 ∨ oracle k x = x))) := by
  intro fu
  induction fu with
  | zero =>
    intro factors queue res hq h
    cases queue with
    | nil =>
      simp only [engineLoop, Option.some_inj] at h
      subst h
      exact ⟨by simp, fun x hx => Or.inl hx⟩
    | cons c rest => exact absurd h (by simp [engineLoop])
  | succ fu ih =>
    intro factors queue res hq h
    cases queue with
    | nil =>
      simp only [engineLoop, Option.some_inj] at h
      subst h
      exact ⟨by simp, fun x hx => Or.inl hx⟩
    | cons current rest =>
      have hcur : 2 ≤ current := hq current (List.mem_cons_self current rest)
      have hrest : ∀ x ∈ rest, 2 ≤ x := fun x hx => hq x (List.mem_cons_of_mem current hx)
      unfold engineLoop at h
      by_cases hp : isPrime current = true
      · rw [if_pos hp] at h
        obtain ⟨hprod, hmem⟩ := ih (factors ++ [current]) rest res hrest h
        constructor
        · rw [hprod]
          simp only [List.prod_append, List.prod_cons, List.prod_nil]
          ring
        · intro x hx
          rcases hmem x hx with h1 | h1
          · rcases List.mem_append.mp h1 with h2 | h2
            · exact Or.inl h2
            · have : x = current := by simpa using h2
              subst this
              exact Or.inr ⟨hcur, Or.inl hp⟩
          · exact Or.inr h1
      · rw [if_neg hp] at h
        have hpf : isPrime current = false := by
          revert hp
          cases isPrime current <;> simp
        by_cases hz : oracle fu current = 0 ∨ oracle fu current = current
        · rw [if_pos hz] at h
          obtain ⟨hprod, hmem⟩ := ih (factors ++ [current]) rest res hrest h
          constructor
          · rw [hprod]
            simp only [List.prod_append, List.prod_cons, List.prod_nil]
            ring
          · intro x hx
            rcases hmem x hx with h1 | h1
            · rcases List.mem_append.mp h1 with h2 | h2
              · exact Or.inl h2
              · have : x = current := by simpa using h2
                subst this
                exact Or.inr ⟨hcur, Or.inr ⟨hpf, fu, hz⟩⟩
            · exact Or.inr h1
        · rw [if_neg hz] at h
          push_neg at hz
          obtain ⟨hg1, hg2, hg3⟩ :=
            coordSpec_split oracle hco fu current hcur hpf hz.1 hz.2
          set g := oracle fu current with hgdef
          have hq1 : 1 ≤ current / g := by
            rcases hg3 with ⟨w, hw⟩
            rcases Nat.eq_zero_or_pos w with h0 | h0
            · subst h0; simp at hw; omega
            · rw [hw, Nat.mul_div_cancel_left w (by omega)]
              exact h0
          have hq2 : 2 ≤ current / g := by
            rcases Nat.lt_or_ge (current / g) 2 with hlt | hge
            · exfalso
              have h1 : current / g = 1 := by omega
              have h2 : current / g * g = current := Nat.div_mul_cancel hg3
              rw [h1, Nat.one_mul] at h2
              omega
            · exact hge
          have hqueue : ∀ x ∈ current / g :: g :: rest, 2 ≤ x := by
            intro x hx
            rcases List.mem_cons.mp hx with h1 | h1
            · omega
            · rcases List.mem_cons.mp h1 with h2 | h2
              · omega
              · exact hrest x h2
          obtain ⟨hprod, hmem⟩ := ih factors (current / g :: g :: rest) res hqueue h
          constructor
          · rw [hprod]
            simp only [List.prod_cons]
            have h2 : current / g * g = current := Nat.div_mul_cancel hg3
            calc factors.prod * (current / g * (g * rest.prod))
                = factors.prod * (current / g * g * rest.prod) := by ring
              _ = factors.prod * (current * rest.prod) := by rw [h2]
          · exact hmem

/-! ## Coordinator round lemmas -/

theorem firstResolve_some : ∀ o v, ∃ w, firstResolve o v = some w := by
  intro o v
  cases o with
  | none => exact ⟨v, rfl⟩
  | some w => exact ⟨w, rfl⟩

/-- A JS promise keeps its first resolution: once the round's result is
fixed, no later event changes it. -/
theorem coordStep_keeps (n : Nat) (s : CoordState) (e : CoordEvent) (v : Nat)
    (h : s.result = some v) : (coordStep n s e).result = some v := by
  cases e with
  | msg f =>
    unfold coordStep
    by_cases hr : s.resolved = true
    · simp [hr, h]
    · cases f with
      | some fac =>
        by_cases hc : fac ≠ n ∧ fac ≠ 1
        · simp [hr, hc, h, firstResolve]
        · by_cases ha : s.active - 1 = 0
          · simp [hr, hc, ha, h, firstResolve]
          · simp [hr, hc, ha, h]
      | none =>
        by_cases ha : s.active - 1 = 0
        · simp [hr, ha, h, firstResolve]
        · simp [hr, ha, h]
  | timeout =>
    unfold coordStep
    by_cases hr : s.resolved = true
    · simp [hr, h]
    · simp [hr, h, firstResolve]

theorem coordFold_keeps (n : Nat) :
    ∀ (events : List CoordEvent) (s : CoordState) v, s.result = some v →
    (events.foldl (coordStep n) s).result = some v := by
  intro events
  induction events with
  | nil => intro s v h; exact h
  | cons e es ih =>
    intro s v h
    exact ih (coordStep n s e) v (coordStep_keeps n s e v h)

/-- While the promise is pending, `resolved` is still `false`. -/
theorem coordStep_inv (n : Nat) (s : CoordState) (e : CoordEvent)
    (h : s.resolved = true → ∃ v, s.result = some v) :
    (coordStep n s e).resolved = true → ∃ v, (coordStep n s e).result = some v := by
  obtain ⟨res, act, r⟩ := s
  cases res with
  | true =>
    cases e with
    | msg f =>
      rw [show coordStep n ⟨true, act, r⟩ (CoordEvent.msg f) = ⟨true, act, r⟩ by
        simp [coordStep]]
      exact h
    | timeout =>
      rw [show coordStep n ⟨true, act, r⟩ CoordEvent.timeout = ⟨true, act, r⟩ by
        simp [coordStep]]
      exact h
  | false =>
    cases e with
    | msg f =>
      cases f with
      | some fac =>
        by_cases hc : fac ≠ n ∧ fac ≠ 1
        · rw [show coordStep n ⟨false, act, r⟩ (CoordEvent.msg (some fac)) =
              ⟨true, act, firstResolve r fac⟩ by simp [coordStep, hc]]
          intro _
          exact firstResolve_some r fac
        · by_cases ha : act - 1 = 0
          · rw [show coordStep n ⟨false, act, r⟩ (CoordEvent.msg (some fac)) =
                ⟨false, act - 1, firstResolve r 0⟩ by simp [coordStep, hc, ha]]
            intro hx
            exact absurd hx (by simp)
          · rw [show coordStep n ⟨false, act, r⟩ (CoordEvent.msg (some fac)) =
                ⟨false, act - 1, r⟩ by simp [coordStep, hc, ha]]
            intro hx
            exact absurd hx (by simp)
      | none =>
        by_cases ha : act - 1 = 0
        · rw [show coordStep n ⟨false, act, r⟩ (CoordEvent.msg none) =
              ⟨false, act - 1, firstResolve r 0⟩ by simp [coordStep, ha]]
          intro hx
          exact absurd hx (by simp)
        · rw [show coordStep n ⟨false, act, r⟩ (CoordEvent.msg none) =
              ⟨false, act - 1, r⟩ by simp [coordStep, ha]]
          intro hx
          exact absurd hx (by simp)
    | timeout =>
      rw [show coordStep n ⟨false, act, r⟩ CoordEvent.timeout =
          ⟨true, act, firstResolve r 0⟩ by simp [coordStep]]
      intro _
      exact firstResolve_some r 0

theorem coordFold_inv (n : Nat) :
    ∀ (events : List CoordEvent) (s : CoordState),
    (s.resolved = true → ∃ v, s.result = some v) →
    ((events.foldl (coordStep n) s).resolved = true →
      ∃ v, (events.foldl (coordStep n) s).result = some v) := by
  intro events
  induction events with
  | nil => intro s h; exact h
  | cons e es ih =>
    intro s h
    exact ih (coordStep n s e) (coordStep_inv n s e h)

/-- When every one of the `wc ≥ 1` workers reports a `null` factor, the
round resolves with `0`. -/
theorem coordRun_allNull (n : Nat) :
    ∀ wc, 1 ≤ wc → (coordRun n wc (List.replicate wc (CoordEvent.msg none))).result = some 0 := by
  intro wc
  induction wc with
  | zero => intro h; omega
  | succ k ih =>
    intro _
    unfold coordRun
    rcases Nat.eq_zero_or_pos k with hk | hk
    · subst hk
      rfl
    · rw [List.replicate_succ, List.foldl_cons]
      have hstep : coordStep n ⟨false, k + 1, none⟩ (CoordEvent.msg none) =
          ⟨false, k, none⟩ := by
        unfold coordStep
        simp [show k + 1 - 1 = k by omega, show ¬(k = 0) by omega]
      rw [hstep]
      exact ih hk

/-- A timeout firing while the round is unresolved resolves it with `0`,
regardless of how many lanes are still active. -/
theorem coordStep_timeout_zero (n : Nat) (s : CoordState)
    (hres : s.resolved = false) (hr : s.result = none) :
    (coordStep n s CoordEvent.timeout).result = some 0 := by
  unfold coordStep
  simp [hres, hr, firstResolve]

/-- If the round is still unresolved after the events `pre`, the single
global timeout resolves the whole round with `0`, and nothing after it can
change that. -/
theorem coordRun_timeout (n wc : Nat) (pre post : List CoordEvent)
    (h : (coordRun n wc pre).result = none) :
    (coordRun n wc (pre ++ CoordEvent.timeout :: post)).result = some 0 := by
  unfold coordRun at h ⊢
  rw [List.foldl_append, List.foldl_cons]
  set s := pre.foldl (coordStep n) ⟨false, wc, none⟩ with hs
  have hres : s.resolved = false := by
    by_cases hb : s.resolved = true
    · obtain ⟨v, hv⟩ := coordFold_inv n pre ⟨false, wc, none⟩ (by simp) hb
      rw [h] at hv
      exact absurd hv (by simp)
    · revert hb
      cases s.resolved <;> simp
  exact coordFold_keeps n post _ 0 (coordStep_timeout_zero n s hres h)

/-! ## Engine-level corollaries shared by the claims -/

theorem smallBasis_ge_two : ∀ p ∈ smallBasis, 2 ≤ p := by decide

theorem smallBasis_isPrime : ∀ p ∈ smallBasis, isPrime p = true := by decide

/-- Full specification of `factorizeCore` for `n ≥ 2` under an admissible
coordinator oracle: the output multiplies out to `n`, and every element is
`≥ 2` and is either prime according to the oracle or an unsplittable
cofactor. -/
theorem factorizeCore_spec (oracle : Nat → Nat → Nat) (hco : CoordSpec oracle)
    (fuel n : Nat) (hn : 2 ≤ n) (l : List Nat)
    (h : factorizeCore oracle fuel n = some l) :
    l.prod = n ∧
    ∀ x ∈ l, 2 ≤ x ∧ (isPrime x = true ∨
      (isPrime x = false ∧ ∃ k, oracle k x = 0 ∨ oracle k x = x)) := by
  unfold factorizeCore at h
  obtain ⟨e1, e2, e3, e4, e5⟩ := runSieve_spec smallBasis n smallBasis_ge_two (by omega)
  set r := runSieve smallBasis n with hr
  obtain ⟨res, hres, hsort⟩ := Option.map_eq_some'.mp h
  have hqueue : ∀ x ∈ (if r.2 > 1 then [r.2] else []), 2 ≤ x := by
    by_cases h2 : r.2 > 1
    · simp only [h2, if_pos]
      intro x hx
      rcases List.mem_cons.mp hx with h3 | h3
      · omega
      · exact absurd h3 (by simp)
    · simp only [h2, if_neg, ite_false]
      intro x hx
      exact absurd hx (by simp)
  obtain ⟨hprod, hmem⟩ := engineLoop_spec oracle hco fuel r.1 _ res hqueue hres
  have hqprod : (if r.2 > 1 then [r.2] else []).prod = r.2 := by
    by_cases h2 : r.2 > 1
    · simp [h2]
    · have : r.2 = 1 := by omega
      simp [h2, this]
  have hperm : List.Perm (List.insertionSort (· ≤ ·) res) res :=
    List.perm_insertionSort (· ≤ ·) res
  constructor
  · rw [← hsort, hperm.prod_eq, hprod, hqprod, e1]
  · intro x hx
    have hx' : x ∈ res := hperm.mem_iff.mp (hsort ▸ hx)
    rcases hmem x hx' with h1 | h1
    · have hxb : x ∈ smallBasis := e5 x h1
      exact ⟨smallBasis_ge_two x hxb, Or.inl (smallBasis_isPrime x hxb)⟩
    · exact h1

/-- The all-lanes-exhausted oracle: every coordination round resolves with
`0` (its race value), so `findFactorParallel` falls back to its non-race
branches. -/
def oracleZ : Nat → Nat → Nat := fun _ m => findFactorParallel m 0

theorem coordSpec_oracleZ : CoordSpec oracleZ := by
  intro k m
  exact ⟨0, Or.inl rfl, rfl⟩

/-- Casting helper: for `n ≥ 2` the `Int` guards of `factorizeAsync` both
fail and the core runs on `n` itself. -/
theorem factorizeAsync_natCast (oracle : Nat → Nat → Nat) (fuel n : Nat)
    (hn : 2 ≤ n) :
    factorizeAsync oracle fuel (n : Int) = factorizeCore oracle fuel n := by
  unfold factorizeAsync
  rw [if_neg (by omega : ¬((n : Int) < 1)), if_neg (by omega : ¬((n : Int) = 1)),
    Int.toNat_natCast]

/-! ## The claims -/

/-- C1: Reconstruction — for every input `n ≥ 1` and every admissible
nondeterministic outcome of the coordinator rounds, a completed
`factorizeAsync(n)` run returns a multiset whose product equals `n` (an
unresolved composite residual stands in the product in place of its unknown
prime factors; the loop invariant `product(factors) * product(queue) = n` is
`engineLoop_spec`). -/
theorem C1_reconstruction (oracle : Nat → Nat → Nat) (hco : CoordSpec oracle)
    (fuel n : Nat) (hn : 1 ≤ n) (l : List Nat)
    (h : factorizeAsync oracle fuel (n : Int) = some l) : l.prod = n := by
  by_cases h1 : n = 1
  · subst h1
    have h2 : l = [1] := by
      have h3 : factorizeAsync oracle fuel ((1 : Nat) : Int) = some [1] := rfl
      rw [h3] at h
      exact (Option.some_inj.mp h).symm
    rw [h2]
    rfl
  · rw [factorizeAsync_natCast oracle fuel n (by omega)] at h
    exact (factorizeCore_spec oracle hco fuel n (by omega) l h).1

/-- C1 witness: the concrete run `factorizeAsync(100)` under the
all-exhausted oracle returns `[2, 2, 5, 5]`, whose product is `100`. -/
theorem C1_reconstruction_witness :
    factorizeAsync oracleZ 9 (100 : Int) = some [2, 2, 5, 5] ∧
    ([2, 2, 5, 5] : List Nat).prod = 100 :=
  ⟨by decide,
   C1_reconstruction oracleZ coordSpec_oracleZ 9 100 (by omega) [2, 2, 5, 5]
     (by decide)⟩

set_option maxRecDepth 8000 in
/-- C2 counterexample: the claim fails as stated.  The odd composite
`n = 318665857834031151167461 = 399165290221 · 798330580441` is a strong
pseudoprime to all twelve witness bases, so `isPrime n = true` and
`findFactorParallel` returns `n` itself — a nonzero value with
`¬(g < n)` — without any divisor verification. -/
theorem C2_divisor_verification_counterexample :
    (318665857834031151167461 : Nat) % 2 = 1 ∧
    (399165290221 : Nat) * 798330580441 = 318665857834031151167461 ∧
    (1 : Nat) < 399165290221 ∧ (1 : Nat) < 798330580441 ∧
    RacePossible 318665857834031151167461 0 ∧
    findFactorParallel 318665857834031151167461 0 = 318665857834031151167461 ∧
    findFactorParallel 318665857834031151167461 0 ≠ 0 ∧
    ¬ (findFactorParallel 318665857834031151167461 0 <
        318665857834031151167461) := by
  have h : findFactorParallel 318665857834031151167461 0 =
      318665857834031151167461 := by decide
  refine ⟨by decide, by decide, by decide, by decide, Or.inl rfl, h, ?_, ?_⟩
  · rw [h]
    decide
  · rw [h]
    exact Nat.lt_irrefl _

/-- C2 (amended): for every odd composite `n` on which the oracle also
reports composite (`isPrime n = false`), any nonzero value returned by
`findFactorParallel` is a verified nontrivial divisor:
`1 < g < n` and `g ∣ n`. -/
theorem C2_divisor_verification (n race : Nat) (hodd : n % 2 = 1)
    (hcomp : ¬ Nat.Prime n) (hn : 2 ≤ n) (hpr : isPrime n = false)
    (hrace : RacePossible n race)
    (h0 : findFactorParallel n race ≠ 0) :
    1 < findFactorParallel n race ∧ findFactorParallel n race < n ∧
    findFactorParallel n race ∣ n := by
  unfold findFactorParallel at h0 ⊢
  rw [if_neg (by omega : ¬(n % 2 = 0))] at h0 ⊢
  rw [if_neg (by simp [hpr] : ¬(isPrime n = true))] at h0 ⊢
  rcases hrace with h | ⟨c, y0, hpost, _, _⟩
  · exact absurd h h0
  · exact lanePost_sound n c y0 race hpost

/-- C2 witness: `n = 15`, with the race resolving on the factor `3` posted
by the lane with parameters `c = 1`, `y0 = 2`. -/
theorem C2_divisor_verification_witness :
    1 < findFactorParallel 15 3 ∧ findFactorParallel 15 3 < 15 ∧
    findFactorParallel 15 3 ∣ 15 :=
  C2_divisor_verification 15 3 (by decide) (by decide) (by decide) (by decide)
    (Or.inr ⟨1, 2, by decide, by decide, by decide⟩) (by decide)

/-- C3: the `PrimalityOracle` contract — `isPrime` rejects `n < 2`, accepts
`2` and `3`, rejects even `n > 3`; otherwise it writes `n - 1 = d · 2^s`
with `d` odd and accepts iff no witness of the fixed ascending list of the
first 12 primes that is `< n` fails (bases `≥ n` stop the loop and accept),
where failing is exactly `specWitnessFails`. -/
theorem C3_isPrime_contract :
    (∀ n : Nat, n < 2 → isPrime n = false) ∧
    (isPrime 2 = true ∧ isPrime 3 = true) ∧
    (∀ n : Nat, 3 < n → n % 2 = 0 → isPrime n = false) ∧
    mrBases = [2, 3, 5, 7, 11, 13, 17, 19, 23, 29, 31, 37] ∧
    (∀ n : Nat, 3 < n → n % 2 = 1 →
      (splitTwos (n - 1) (n - 1)).1 % 2 = 1 ∧
      (splitTwos (n - 1) (n - 1)).1 * 2 ^ (splitTwos (n - 1) (n - 1)).2 = n - 1 ∧
      (isPrime n = true ↔ ∀ a ∈ mrBases, a < n →
        ¬ specWitnessFails n (splitTwos (n - 1) (n - 1)).1
            (splitTwos (n - 1) (n - 1)).2 a)) := by
  refine ⟨?_, ⟨by decide, by decide⟩, ?_, rfl, ?_⟩
  · intro n h
    unfold isPrime
    rw [if_pos h]
  · intro n h1 h2
    unfold isPrime
    rw [if_neg (by omega : ¬(n < 2)), if_neg (by omega : ¬(n = 2 ∨ n = 3)),
      if_pos h2]
  · intro n h1 h2
    obtain ⟨hd1, hd2⟩ := splitTwos_spec (n - 1) (n - 1) (by omega) le_rfl
    set d := (splitTwos (n - 1) (n - 1)).1 with hddef
    set s := (splitTwos (n - 1) (n - 1)).2 with hsdef
    have hs1 : 1 ≤ s := by
      by_contra hcon
      push_neg at hcon
      have hz : s = 0 := by omega
      rw [hz, pow_zero, Nat.mul_one] at hd2
      omega
    refine ⟨hd1, hd2, ?_⟩
    have hiso : isPrime n = basesLoop mrBases n d s := by
      unfold isPrime
      rw [if_neg (by omega : ¬(n < 2)), if_neg (by omega : ¬(n = 2 ∨ n = 3)),
        if_neg (by omega : ¬(n % 2 = 0))]
    rw [hiso, basesLoop_iff mrBases (by decide) n d s]
    constructor
    · intro hall a ha hlt hspec
      have hf := hall a ha hlt
      have ht : mrWitnessFails n d s a = true :=
        (mrWitnessFails_iff n d s a (by omega) hs1).mpr hspec
      rw [hf] at ht
      exact absurd ht (by simp)
    · intro hall a ha hlt
      have hnt : ¬ (mrWitnessFails n d s a = true) := fun ht =>
        hall a ha hlt ((mrWitnessFails_iff n d s a (by omega) hs1).mp ht)
      revert hnt
      cases mrWitnessFails n d s a <;> simp

/-- C4: Primality agreement — every factor returned by a completed
`factorizeAsync` run on `n ≥ 2` either satisfies `isPrime` or is an
unresolved cofactor: one for which some coordinator round returned `0`
(failure) or the cofactor itself; such cofactors are appended to the output
as-is (the unresolved marking in the spec corresponds to this failure
branch — the returned value carries no separate flag). -/
theorem C4_primality_agreement (oracle : Nat → Nat → Nat)
    (hco : CoordSpec oracle) (fuel n : Nat) (hn : 2 ≤ n) (l : List Nat)
    (h : factorizeAsync oracle fuel (n : Int) = some l) :
    ∀ x ∈ l, isPrime x = true ∨
      (isPrime x = false ∧ ∃ k, oracle k x = 0 ∨ oracle k x = x) := by
  rw [factorizeAsync_natCast oracle fuel n hn] at h
  intro x hx
  exact ((factorizeCore_spec oracle hco fuel n hn l h).2 x hx).2

/-- C4 witness: `899 = 29 · 31` escapes the part_003 sieve basis and the
all-exhausted oracle cannot split it, so it is returned as an unresolved
composite. -/
theorem C4_primality_agreement_witness :
    factorizeAsync oracleZ 5 (899 : Int) = some [899] ∧
    (isPrime 899 = true ∨
      (isPrime 899 = false ∧ ∃ k, oracleZ k 899 = 0 ∨ oracleZ k 899 = 899)) :=
  ⟨by decide,
   C4_primality_agreement oracleZ coordSpec_oracleZ 5 899 (by omega) [899]
     (by decide) 899 (by simp)⟩

/-- C5: Coordinator failure semantics — a round in which all `wc ≥ 1`
workers post `null` resolves with `0`; the single global timeout firing on a
still-unresolved round resolves the whole round with `0` whatever the
later events and however many lanes are still active; both are ordinary
resolutions of the promise (no error value exists in the model, mirroring
`resolve(0n)`). -/
theorem C5_coordinator_failure :
    (∀ n wc, 1 ≤ wc →
      (coordRun n wc (List.replicate wc (CoordEvent.msg none))).result = some 0) ∧
    (∀ n wc pre post, (coordRun n wc pre).result = none →
      (coordRun n wc (pre ++ CoordEvent.timeout :: post)).result = some 0) ∧
    (∀ n s, s.resolved = false → s.result = none →
      (coordStep n s CoordEvent.timeout).result = some 0) :=
  ⟨coordRun_allNull,
   fun n wc pre post h => coordRun_timeout n wc pre post h,
   fun n s h1 h2 => coordStep_timeout_zero n s h1 h2⟩

/-- C5 witness: a concrete round with 4 workers all reporting `null`, and a
concrete round timing out right away. -/
theorem C5_coordinator_failure_witness :
    (coordRun 15 4 (List.replicate 4 (CoordEvent.msg none))).result = some 0 ∧
    (coordRun 15 4 ([] ++ CoordEvent.timeout :: [CoordEvent.msg none])).result =
      some 0 ∧
    (coordStep 15 ⟨false, 4, none⟩ CoordEvent.timeout).result = some 0 :=
  ⟨C5_coordinator_failure.1 15 4 (by omega),
   C5_coordinator_failure.2.1 15 4 [] [CoordEvent.msg none] rfl,
   C5_coordinator_failure.2.2 15 ⟨false, 4, none⟩ rfl rfl⟩

/-- C6: Terminal special cases — `factorizeAsync` returns `[]` for every
`n < 1` and `[1]` for `n = 1`, for every oracle and every fuel: the result
does not depend on the coordinator or the loop at all, so no sieve,
primality test or rho search is invoked. -/
theorem C6_terminal_cases (oracle : Nat → Nat → Nat) (fuel : Nat) :
    (∀ nVal : Int, nVal < 1 → factorizeAsync oracle fuel nVal = some []) ∧
    factorizeAsync oracle fuel 1 = some [1] := by
  constructor
  · intro nVal h
    unfold factorizeAsync
    rw [if_pos h]
  · rfl

/-- C6 witness: concrete negative, zero and unit inputs. -/
theorem C6_terminal_cases_witness :
    factorizeAsync oracleZ 0 (-5) = some [] ∧
    factorizeAsync oracleZ 0 0 = some [] ∧
    factorizeAsync oracleZ 0 1 = some [1] :=
  ⟨(C6_terminal_cases oracleZ 0).1 (-5) (by decide),
   (C6_terminal_cases oracleZ 0).1 0 (by decide),
   (C6_terminal_cases oracleZ 0).2⟩

/-- C7: TrialDivisionSieve contract — for every `n ≥ 2` the sieve's factors
all come from the fixed basis, `product(smallFactors) * residual = n`, and
the residual is `1` or `> 1` and divisible by no basis prime. -/
theorem C7_sieve_contract (n : Nat) (hn : 2 ≤ n) :
    (runSieve smallBasis n).1.prod * (runSieve smallBasis n).2 = n ∧
    (∀ x ∈ (runSieve smallBasis n).1, x ∈ smallBasis) ∧
    ((runSieve smallBasis n).2 = 1 ∨
      (1 < (runSieve smallBasis n).2 ∧
        ∀ p ∈ smallBasis, ¬ p ∣ (runSieve smallBasis n).2)) := by
  obtain ⟨e1, e2, e3, e4, e5⟩ :=
    runSieve_spec smallBasis n smallBasis_ge_two (by omega)
  refine ⟨e1, e5, ?_⟩
  rcases Nat.lt_or_ge (runSieve smallBasis n).2 2 with h | h
  · exact Or.inl (by omega)
  · exact Or.inr ⟨by omega, e4⟩

/-- C7 witness: `360 = 2³ · 3² · 5` is fully captured by the basis. -/
theorem C7_sieve_contract_witness :
    (runSieve smallBasis 360).1.prod * (runSieve smallBasis 360).2 = 360 ∧
    (∀ x ∈ (runSieve smallBasis 360).1, x ∈ smallBasis) ∧
    ((runSieve smallBasis 360).2 = 1 ∨
      (1 < (runSieve smallBasis 360).2 ∧
        ∀ p ∈ smallBasis, ¬ p ∣ (runSieve smallBasis 360).2)) :=
  C7_sieve_contract 360 (by omega)

/-- C8: Ordered output — every multiset a completed `factorizeAsync` run
returns is sorted ascending (repetitions allowed), for every input and
every oracle. -/
theorem C8_sorted_output (oracle : Nat → Nat → Nat) (fuel : Nat)
    (nVal : Int) (l : List Nat)
    (h : factorizeAsync oracle fuel nVal = some l) :
    List.Sorted (· ≤ ·) l := by
  unfold factorizeAsync at h
  by_cases h1 : nVal < 1
  · rw [if_pos h1] at h
    rw [← Option.some_inj.mp h]
    exact List.sorted_nil
  · rw [if_neg h1] at h
    by_cases h2 : nVal = 1
    · rw [if_pos h2] at h
      rw [← Option.some_inj.mp h]
      exact List.sorted_singleton 1
    · rw [if_neg h2] at h
      unfold factorizeCore at h
      obtain ⟨res, _, hsort⟩ := Option.map_eq_some'.mp h
      rw [← hsort]
      exact List.sorted_insertionSort (· ≤ ·) res

/-- C8 witness: the run on `100` produces the ascending `[2, 2, 5, 5]`. -/
theorem C8_sorted_output_witness : List.Sorted (· ≤ ·) ([2, 2, 5, 5] : List Nat) :=
  C8_sorted_output oracleZ 9 100 [2, 2, 5, 5] (by decide)

/-- C9: Lane purity — the embedded lane body (`solveRawBrent` plus the
retry-and-filter logic of the worker's message handler) is a function of
`(n, c, y0)` alone: two runs on identical inputs yield identical outcomes.
The worker source reads nothing besides its message `(nStr, startC,
seedVal)`, which is what makes this embedding as a pure function faithful. -/
theorem C9_lane_purity (n c y0 : Nat) (r1 r2 : Option Nat)
    (h1 : lanePost n c y0 = r1) (h2 : lanePost n c y0 = r2) : r1 = r2 := by
  rw [← h1, ← h2]

/-- C9 witness: two runs of the lane on `(15, c = 1, y0 = 2)`. -/
theorem C9_lane_purity_witness : (some 3 : Option Nat) = some 3 :=
  C9_lane_purity 15 1 2 (some 3) (some 3) (by decide) (by decide)

/-- C10: for `n ≥ 2` and any admissible coordinator oracle, every element
of a completed `factorizeAsync` output is `≥ 2`: sieve divisors are basis
primes, queued cofactors stay `> 1`, and splits push proper divisors. -/
theorem C10_factors_ge_two (oracle : Nat → Nat → Nat)
    (hco : CoordSpec oracle) (fuel n : Nat) (hn : 2 ≤ n) (l : List Nat)
    (h : factorizeAsync oracle fuel (n : Int) = some l) :
    ∀ x ∈ l, 2 ≤ x := by
  rw [factorizeAsync_natCast oracle fuel n hn] at h
  intro x hx
  exact ((factorizeCore_spec oracle hco fuel n hn l h).2 x hx).1

/-- C10 witness: the element `5` of the run on `100` is `≥ 2`. -/
theorem C10_factors_ge_two_witness :
    factorizeAsync oracleZ 9 (100 : Int) = some [2, 2, 5, 5] ∧ 2 ≤ 5 :=
  ⟨by decide,
   C10_factors_ge_two oracleZ coordSpec_oracleZ 9 100 (by omega) [2, 2, 5, 5]
     (by decide) 5 (by simp)⟩

/-- C3 witness: concrete instances of each clause of the contract, at
`n = 0`, `n = 10` and `n = 97`. -/
theorem C3_isPrime_contract_witness :
    isPrime 0 = false ∧ isPrime 10 = false ∧
    (isPrime 97 = true ↔ ∀ a ∈ mrBases, a < 97 →
      ¬ specWitnessFails 97 (splitTwos (97 - 1) (97 - 1)).1
          (splitTwos (97 - 1) (97 - 1)).2 a) :=
  ⟨C3_isPrime_contract.1 0 (by decide),
   (C3_isPrime_contract.2.2.1) 10 (by decide) (by decide),
   (C3_isPrime_contract.2.2.2.2 97 (by decide) (by decide)).2.2⟩
